import Mathlib

/-!
Verification of the BB84 QKD simulation (`src/bb84.py`).

The Python module builds a quantum circuit (Alice's preparation, optional
eavesdropper interference, random bit/phase-flip noise, Bob's measurement),
runs it single-shot on an external simulator, and post-processes the
classical outcome (sifting, QBER estimation, abort/accept, key assembly).

Shallow embedding conventions:
* A quantum circuit is the list of gate applications appended to it, in
  order (`Gate`).  The external simulator that turns the circuit into one
  classical outcome string is out of scope; its decoded per-position
  outcome is supplied by the oracle field `measuredSrc` below.
* Python's ambient `random` module is replaced by explicit draw sources
  (one independent stream per use site, indexed by qubit position), and
  `random.sample(range(2*n), n)` by the `checkSample` field, an arbitrary
  without-replacement sample (the library contract).
* Machine floats of the Python code are modelled by `ℚ`; all quantities
  involved (counts divided by counts) are exact rationals.
-/

/-- One gate application of the simulated circuit, mirroring the calls
`qc.x(i)`, `qc.z(i)`, `qc.h(i)`, `qc.measure(i, i)`, `qc.barrier(label=…)`
made by `src/bb84.py`. -/
inductive Gate where
  | x : ℕ → Gate
  | z : ℕ → Gate
  | h : ℕ → Gate
  | meas : ℕ → ℕ → Gate
  | barrier : String → Gate
deriving DecidableEq, Repr

/-- Outcome of one protocol run, mirroring the three result dicts returned
by `run_bb84` (`src/bb84.py` lines 143-147, 168-174, 185-192).  The two
abort constructors carry exactly the fields the corresponding dicts carry;
in particular neither has a shared-key field. -/
inductive RunResult where
  | abortSifted : String → ℕ → RunResult
  | abortQBER : String → ℚ → ℕ → ℕ → RunResult
  | success : ℚ → ℕ → ℕ → List ℕ → ℚ → RunResult
deriving DecidableEq, Repr

/-- The `shared_key_bits` field of a result dict, when present.  Only the
success dict of `run_bb84` populates it. -/
def sharedKeyBitsOf : RunResult → Option (List ℕ)
  | RunResult.success _ _ _ k _ => some k
  | _ => none

/-- The explicit random/oracle sources consumed by one run: Python's
ambient `random.randint(0,1)` streams for Alice's data bits and the three
basis strings, the per-position coin drawn inside `eve_interference`, the
per-position `random.random()` draws of the two error masks, the decoded
single-shot measurement outcome of the external simulator (an oracle),
and the value returned by `random.sample(range(2*n), n)`. -/
structure Sources where
  dataSrc : ℕ → ℕ
  aliceSrc : ℕ → ℕ
  bobSrc : ℕ → ℕ
  eveSrc : ℕ → ℕ
  eveCoins : ℕ → Bool
  usBit : ℕ → ℚ
  usPhase : ℕ → ℚ
  measuredSrc : ℕ → ℕ
  checkSample : List ℕ

/-- `total = math.ceil((4.0 + float(delta)) * n)` (`src/bb84.py` line 109). -/
def totalQubits (n : ℕ) (delta : ℚ) : ℕ :=
  Nat.ceil ((4 + delta) * (n : ℚ))

/-- `[random.randint(0, 1) for _ in range(total)]` drawn from an explicit
source (`src/bb84.py` lines 111-115). -/
def drawBits (src : ℕ → ℕ) (total : ℕ) : List ℕ :=
  (List.range total).map src

/-! ### Circuit construction (`src/bb84.py` lines 35-99) -/

/-- `random_err_mask(total, percentage)` (`src/bb84.py` lines 35-36), with
the stream of `random.random()` draws made explicit: entry `k` is `1`
exactly when the `k`-th draw is below `percentage`. -/
def random_err_mask (total : ℕ) (percentage : ℚ) (us : ℕ → ℚ) : List ℕ :=
  (List.range total).map (fun k => if us k < percentage then 1 else 0)

/-- The gates appended by the loop of `add_random_bit_flip_errors`
(`src/bb84.py` lines 40-44): an `X` on qubit `i` whenever the mask is `1`. -/
def bitFlipSegment (L : ℕ) (percentage : ℚ) (us : ℕ → ℚ) : List Gate :=
  (List.range L).flatMap (fun i =>
    if (random_err_mask L percentage us).getD i 0 = 1 then [Gate.x i] else [])

/-- `add_random_bit_flip_errors(qc, L, percentage)` (`src/bb84.py` lines 38-45). -/
def add_random_bit_flip_errors (qc : List Gate) (L : ℕ) (percentage : ℚ)
    (us : ℕ → ℚ) : List Gate :=
  qc ++ Gate.barrier "BitFlips" :: bitFlipSegment L percentage us

/-- The gates appended by the loop of `add_random_phase_flip_errors`
(`src/bb84.py` lines 49-53): a `Z` on qubit `i` whenever the mask is `1`. -/
def phaseFlipSegment (L : ℕ) (percentage : ℚ) (us : ℕ → ℚ) : List Gate :=
  (List.range L).flatMap (fun i =>
    if (random_err_mask L percentage us).getD i 0 = 1 then [Gate.z i] else [])

/-- `add_random_phase_flip_errors(qc, L, percentage)` (`src/bb84.py` lines 47-54). -/
def add_random_phase_flip_errors (qc : List Gate) (L : ℕ) (percentage : ℚ)
    (us : ℕ → ℚ) : List Gate :=
  qc ++ Gate.barrier "PhaseFlips" :: phaseFlipSegment L percentage us

/-- `add_random_errors(qc, L, percentage)` (`src/bb84.py` lines 56-59):
bit flips at `percentage/2`, then phase flips at `percentage/2`, on two
independent draw streams. -/
def add_random_errors (qc : List Gate) (L : ℕ) (percentage : ℚ)
    (usBit usPhase : ℕ → ℚ) : List Gate :=
  add_random_phase_flip_errors
    (add_random_bit_flip_errors qc L (percentage / 2) usBit)
    L (percentage / 2) usPhase

/-- `prepare_alice_circuit(data_bits, alice_bases)` (`src/bb84.py` lines
63-77): per position, basis `0` (Z) encodes the bit as `|0>`/`|1>` (an `X`
for bit `1`), basis `1` (X) as `|+>`/`|->` (`H`, preceded by `X` for bit `1`). -/
def prepare_alice_circuit (data_bits alice_bases : List ℕ) : List Gate :=
  (List.range data_bits.length).flatMap (fun i =>
    if alice_bases.getD i 0 = 0 then
      (if data_bits.getD i 0 = 1 then [Gate.x i] else [])
    else
      (if data_bits.getD i 0 = 0 then [Gate.h i] else [Gate.x i, Gate.h i]))

/-- The gates `eve_interference` appends for one position `i`
(`src/bb84.py` lines 84-88): nothing when Eve's basis agrees with Alice's;
otherwise an `H` (basis switch), then — when the drawn coin is set — an
`X` if Eve's basis is `0` (Z), else a `Z`. -/
def evePerPos (alice_bases eve_bases : List ℕ) (coins : ℕ → Bool) (i : ℕ) :
    List Gate :=
  if eve_bases.getD i 0 ≠ alice_bases.getD i 0 then
    Gate.h i ::
      (if coins i then [if eve_bases.getD i 0 = 0 then Gate.x i else Gate.z i]
       else [])
  else []

/-- The gates appended by the loop of `eve_interference` over
`zip(range(L), eve_bases, alice_bases)` (`src/bb84.py` lines 83-88); the
`zip` stops at the shorter of the two basis lists. -/
def eveSegment (alice_bases eve_bases : List ℕ) (coins : ℕ → Bool) :
    List Gate :=
  (List.range (min eve_bases.length alice_bases.length)).flatMap
    (evePerPos alice_bases eve_bases coins)

/-- `eve_interference(qc, alice_bases, eve_bases)` (`src/bb84.py` lines 79-89). -/
def eve_interference (qc : List Gate) (alice_bases eve_bases : List ℕ)
    (coins : ℕ → Bool) : List Gate :=
  qc ++ Gate.barrier "Eve" :: eveSegment alice_bases eve_bases coins

/-- The gates appended by the loop of `measure_bob_in_bases`
(`src/bb84.py` lines 94-98): an `H` first when Bob's basis is `1` (X),
then `measure(i, i)`. -/
def bobSegment (bob_bases : List ℕ) : List Gate :=
  (List.range bob_bases.length).flatMap (fun i =>
    (if bob_bases.getD i 0 = 1 then [Gate.h i] else []) ++ [Gate.meas i i])

/-- `measure_bob_in_bases(qc, bob_bases)` (`src/bb84.py` lines 91-99). -/
def measure_bob_in_bases (qc : List Gate) (bob_bases : List ℕ) : List Gate :=
  qc ++ Gate.barrier "Bob" :: bobSegment bob_bases

/-- The circuit built by `run_bb84` (`src/bb84.py` lines 117-123):
preparation, then — only when Eve is present — interference, then noise at
rate `avgErrors/total`, then Bob's measurement. -/
def bb84_circuit (n : ℕ) (delta avgErrors : ℚ) (isEvePresent : Bool)
    (S : Sources) : List Gate :=
  measure_bob_in_bases
    (add_random_errors
      (if isEvePresent then
        eve_interference
          (prepare_alice_circuit (drawBits S.dataSrc (totalQubits n delta))
            (drawBits S.aliceSrc (totalQubits n delta)))
          (drawBits S.aliceSrc (totalQubits n delta))
          (drawBits S.eveSrc (totalQubits n delta)) S.eveCoins
      else
        prepare_alice_circuit (drawBits S.dataSrc (totalQubits n delta))
          (drawBits S.aliceSrc (totalQubits n delta)))
      (totalQubits n delta)
      (avgErrors / (totalQubits n delta : ℚ)) S.usBit S.usPhase)
    (drawBits S.bobSrc (totalQubits n delta))

/-! ### Classical post-processing (`src/bb84.py` lines 140-192) -/

/-- `sifted_positions = [i for i in range(total) if alice_bases[i] == bob_bases[i]]`
(`src/bb84.py` line 141). -/
def sifted_positions (total : ℕ) (alice_bases bob_bases : List ℕ) : List ℕ :=
  (List.range total).filter (fun i =>
    decide (alice_bases.getD i 0 = bob_bases.getD i 0))

/-- The sifted positions of a run, from the drawn basis strings. -/
def siftedOf (n : ℕ) (delta : ℚ) (S : Sources) : List ℕ :=
  sifted_positions (totalQubits n delta)
    (drawBits S.aliceSrc (totalQubits n delta))
    (drawBits S.bobSrc (totalQubits n delta))

/-- `kept_pos = sifted_positions[: 2*n]` (`src/bb84.py` line 151). -/
def keptOf (n : ℕ) (delta : ℚ) (S : Sources) : List ℕ :=
  (siftedOf n delta S).take (2 * n)

/-- `alice_kept = [data_bits[i] for i in kept_pos]` (`src/bb84.py` line 152). -/
def aliceKeptOf (n : ℕ) (delta : ℚ) (S : Sources) : List ℕ :=
  (keptOf n delta S).map
    (fun i => (drawBits S.dataSrc (totalQubits n delta)).getD i 0)

/-- `bob_kept = [measured_bits[i] for i in kept_pos]` (`src/bb84.py` line 153). -/
def bobKeptOf (n : ℕ) (delta : ℚ) (S : Sources) : List ℕ :=
  (keptOf n delta S).map
    (fun i => (drawBits S.measuredSrc (totalQubits n delta)).getD i 0)

/-- `key_indices = [i for i in indices if i not in check_indices]` where
`indices = list(range(2*n))` and `check_indices = random.sample(indices, n)`
(`src/bb84.py` lines 156-158). -/
def keyIndicesOf (n : ℕ) (S : Sources) : List ℕ :=
  (List.range (2 * n)).filter (fun i => decide (i ∉ S.checkSample))

/-- The mismatch count of the check-loop of `run_bb84`
(`src/bb84.py` lines 161-164). -/
def mismatchesOf (n : ℕ) (delta : ℚ) (S : Sources) : ℕ :=
  (S.checkSample.filter (fun ci =>
    decide ((aliceKeptOf n delta S).getD ci 0 ≠ (bobKeptOf n delta S).getD ci 0))).length

/-- `qber = check_mismatches / float(n)` (`src/bb84.py` line 165). -/
def qberOf (n : ℕ) (delta : ℚ) (S : Sources) : ℚ :=
  (mismatchesOf n delta S : ℚ) / (n : ℚ)

/-- `raw_key_alice = [alice_kept[i] for i in key_indices]` (`src/bb84.py` line 178). -/
def rawKeyAliceOf (n : ℕ) (delta : ℚ) (S : Sources) : List ℕ :=
  (keyIndicesOf n S).map (fun i => (aliceKeptOf n delta S).getD i 0)

/-- `raw_key_bob = [bob_kept[i] for i in key_indices]` (`src/bb84.py` line 179). -/
def rawKeyBobOf (n : ℕ) (delta : ℚ) (S : Sources) : List ℕ :=
  (keyIndicesOf n S).map (fun i => (bobKeptOf n delta S).getD i 0)

/-- `real_error_count` (`src/bb84.py` line 180): the number of key
positions where Alice's and Bob's raw key bits differ. -/
def realErrorCountOf (n : ℕ) (delta : ℚ) (S : Sources) : ℕ :=
  ((List.range (rawKeyAliceOf n delta S).length).filter (fun i =>
    decide ((rawKeyAliceOf n delta S).getD i 0 ≠ (rawKeyBobOf n delta S).getD i 0))).length

/-- `run_bb84(n, delta, tolerance, backend, avgErrors, isEvePresent)`
(`src/bb84.py` lines 101-192).  The circuit construction of lines 117-123
is `bb84_circuit` above; the backend's decoded single-shot outcome is the
oracle `S.measuredSrc`.  The control flow below is the classical
post-processing of lines 140-192: abort when fewer than `2*n` positions
survive sifting, abort when the check-partition QBER strictly exceeds
`tolerance`, otherwise return Alice's raw key bits at the key partition. -/
def run_bb84 (n : ℕ) (delta tolerance avgErrors : ℚ) (isEvePresent : Bool)
    (S : Sources) : RunResult :=
  if (siftedOf n delta S).length < 2 * n then
    RunResult.abortSifted
      ("Not enough sifted bits: got " ++ toString (siftedOf n delta S).length ++
        ", need >= " ++ toString (2 * n))
      (siftedOf n delta S).length
  else if qberOf n delta S > tolerance then
    RunResult.abortQBER
      ("QBER too high on check bits: " ++ toString (qberOf n delta S) ++
        " > " ++ toString tolerance)
      (qberOf n delta S) (mismatchesOf n delta S) n
  else
    RunResult.success (qberOf n delta S) (siftedOf n delta S).length
      (totalQubits n delta) (rawKeyAliceOf n delta S)
      ((realErrorCountOf n delta S : ℚ) / ((rawKeyAliceOf n delta S).length : ℚ))

/-- The all-zero sources: every drawn bit `0`, every coin unset, every
uniform draw `0`, measurement oracle all `0`, check sample `[0]`. -/
def zeroSources : Sources :=
  { dataSrc := fun _ => 0
    aliceSrc := fun _ => 0
    bobSrc := fun _ => 0
    eveSrc := fun _ => 0
    eveCoins := fun _ => false
    usBit := fun _ => 0
    usPhase := fun _ => 0
    measuredSrc := fun _ => 0
    checkSample := [0] }

/-- Sources identical to `zeroSources` except that the measurement oracle
reads `1` at every position, so every compared bit mismatches. -/
def mismatchSources : Sources :=
  { zeroSources with measuredSrc := fun _ => 1 }

/-! ### Evaluation and plumbing lemmas -/

theorem totalQubits_one_zero : totalQubits 1 0 = 4 := by
  norm_num [totalQubits]

theorem siftedOf_zeroSources : siftedOf 1 0 zeroSources = [0, 1, 2, 3] := by
  simp only [siftedOf]
  rw [totalQubits_one_zero]
  decide

theorem drawBits_getD (src : ℕ → ℕ) (total i : ℕ) (h : i < total) :
    (drawBits src total).getD i 0 = src i := by
  simp [drawBits, List.getD_eq_getElem?_getD, List.getElem?_map,
    List.getElem?_range, h]

theorem run_bb84_eq_abortSifted (n : ℕ) (delta tolerance avgErrors : ℚ)
    (eve : Bool) (S : Sources) (h : (siftedOf n delta S).length < 2 * n) :
    run_bb84 n delta tolerance avgErrors eve S =
      RunResult.abortSifted
        ("Not enough sifted bits: got " ++ toString (siftedOf n delta S).length ++
          ", need >= " ++ toString (2 * n))
        (siftedOf n delta S).length := by
  rw [run_bb84, if_pos h]

theorem run_bb84_eq_abortQBER (n : ℕ) (delta tolerance avgErrors : ℚ)
    (eve : Bool) (S : Sources) (h1 : ¬ (siftedOf n delta S).length < 2 * n)
    (h2 : qberOf n delta S > tolerance) :
    run_bb84 n delta tolerance avgErrors eve S =
      RunResult.abortQBER
        ("QBER too high on check bits: " ++ toString (qberOf n delta S) ++
          " > " ++ toString tolerance)
        (qberOf n delta S) (mismatchesOf n delta S) n := by
  rw [run_bb84, if_neg h1, if_pos h2]

theorem run_bb84_eq_success (n : ℕ) (delta tolerance avgErrors : ℚ)
    (eve : Bool) (S : Sources) (h1 : ¬ (siftedOf n delta S).length < 2 * n)
    (h2 : ¬ qberOf n delta S > tolerance) :
    run_bb84 n delta tolerance avgErrors eve S =
      RunResult.success (qberOf n delta S) (siftedOf n delta S).length
        (totalQubits n delta) (rawKeyAliceOf n delta S)
        ((realErrorCountOf n delta S : ℚ) /
          ((rawKeyAliceOf n delta S).length : ℚ)) := by
  rw [run_bb84, if_neg h1, if_neg h2]

theorem getD_mem_of_lt (l : List ℕ) (i d : ℕ) (h : i < l.length) :
    l.getD i d ∈ l := by
  rw [List.getD_eq_getElem?_getD, List.getElem?_eq_getElem h]
  exact List.getElem_mem h

theorem getD_map_of_lt (f : ℕ → ℕ) (l : List ℕ) (i : ℕ) (h : i < l.length)
    (d d' : ℕ) : (l.map f).getD i d = f (l.getD i d') := by
  rw [List.getD_eq_getElem?_getD, List.getD_eq_getElem?_getD,
    List.getElem?_map, List.getElem?_eq_getElem h]
  rfl

theorem mem_siftedOf (n : ℕ) (delta : ℚ) (S : Sources) (i : ℕ) :
    i ∈ siftedOf n delta S ↔
      i < totalQubits n delta ∧ S.aliceSrc i = S.bobSrc i := by
  simp only [siftedOf, sifted_positions, List.mem_filter, List.mem_range,
    decide_eq_true_eq]
  constructor
  · rintro ⟨hi, he⟩
    rw [drawBits_getD _ _ _ hi, drawBits_getD _ _ _ hi] at he
    exact ⟨hi, he⟩
  · rintro ⟨hi, he⟩
    refine ⟨hi, ?_⟩
    rw [drawBits_getD _ _ _ hi, drawBits_getD _ _ _ hi]
    exact he

theorem siftedOf_sorted (n : ℕ) (delta : ℚ) (S : Sources) :
    List.Sorted (· < ·) (siftedOf n delta S) :=
  (List.sorted_lt_range _).filter _

theorem keptOf_sorted (n : ℕ) (delta : ℚ) (S : Sources) :
    List.Sorted (· < ·) (keptOf n delta S) :=
  (siftedOf_sorted n delta S).sublist (List.take_sublist _ _)

theorem keptOf_length (n : ℕ) (delta : ℚ) (S : Sources)
    (hre : 2 * n ≤ (siftedOf n delta S).length) :
    (keptOf n delta S).length = 2 * n := by
  simp [keptOf, List.length_take, Nat.min_eq_left hre]

theorem mem_keptOf_lt_total (n : ℕ) (delta : ℚ) (S : Sources) (i : ℕ)
    (h : i ∈ keptOf n delta S) : i < totalQubits n delta :=
  ((mem_siftedOf n delta S i).1 (List.take_subset _ _ h)).1

theorem keptOf_getD_lt_total (n : ℕ) (delta : ℚ) (S : Sources) (i : ℕ)
    (hre : 2 * n ≤ (siftedOf n delta S).length) (hi : i < 2 * n) :
    (keptOf n delta S).getD i 0 < totalQubits n delta := by
  refine mem_keptOf_lt_total n delta S _ (getD_mem_of_lt _ _ _ ?_)
  rw [keptOf_length n delta S hre]
  exact hi

theorem aliceKeptOf_getD_eq (n : ℕ) (delta : ℚ) (S : Sources) (i : ℕ)
    (hre : 2 * n ≤ (siftedOf n delta S).length) (hi : i < 2 * n) :
    (aliceKeptOf n delta S).getD i 0 =
      S.dataSrc ((keptOf n delta S).getD i 0) := by
  have hlen : i < (keptOf n delta S).length := by
    rw [keptOf_length n delta S hre]; exact hi
  rw [aliceKeptOf, getD_map_of_lt _ _ _ hlen 0 0,
    drawBits_getD _ _ _ (keptOf_getD_lt_total n delta S i hre hi)]

theorem bobKeptOf_getD_eq (n : ℕ) (delta : ℚ) (S : Sources) (i : ℕ)
    (hre : 2 * n ≤ (siftedOf n delta S).length) (hi : i < 2 * n) :
    (bobKeptOf n delta S).getD i 0 =
      S.measuredSrc ((keptOf n delta S).getD i 0) := by
  have hlen : i < (keptOf n delta S).length := by
    rw [keptOf_length n delta S hre]; exact hi
  rw [bobKeptOf, getD_map_of_lt _ _ _ hlen 0 0,
    drawBits_getD _ _ _ (keptOf_getD_lt_total n delta S i hre hi)]

theorem mem_keyIndicesOf (n : ℕ) (S : Sources) (i : ℕ) :
    i ∈ keyIndicesOf n S ↔ i < 2 * n ∧ i ∉ S.checkSample := by
  simp [keyIndicesOf, List.mem_filter, List.mem_range]

theorem keyIndicesOf_sorted (n : ℕ) (S : Sources) :
    List.Sorted (· < ·) (keyIndicesOf n S) :=
  (List.sorted_lt_range _).filter _

theorem keyIndicesOf_nodup (n : ℕ) (S : Sources) :
    (keyIndicesOf n S).Nodup :=
  (List.nodup_range _).filter _

theorem keyIndicesOf_length (n : ℕ) (S : Sources) (hnd : S.checkSample.Nodup)
    (hlen : S.checkSample.length = n)
    (hsub : ∀ i ∈ S.checkSample, i < 2 * n) :
    (keyIndicesOf n S).length = n := by
  have hperm :
      ((List.range (2 * n)).filter (fun i => decide (i ∈ S.checkSample))).Perm
        S.checkSample := by
    refine List.perm_of_nodup_nodup_toFinset_eq
      ((List.nodup_range _).filter _) hnd ?_
    ext a
    simp only [List.mem_toFinset, List.mem_filter, List.mem_range,
      decide_eq_true_eq]
    exact ⟨fun h => h.2, fun h => ⟨hsub a h, h⟩⟩
  have hsplit :=
    @List.length_eq_length_filter_add ℕ (List.range (2 * n))
      (fun i => decide (i ∈ S.checkSample))
  rw [List.length_range, hperm.length_eq, hlen] at hsplit
  have hkey : keyIndicesOf n S =
      (List.range (2 * n)).filter
        (fun a => !(decide (a ∈ S.checkSample))) := by
    simp only [keyIndicesOf, decide_not]
  rw [hkey]
  omega

theorem checkSample_append_keyIndices_perm (n : ℕ) (S : Sources)
    (hnd : S.checkSample.Nodup) (hsub : ∀ i ∈ S.checkSample, i < 2 * n) :
    (S.checkSample ++ keyIndicesOf n S).Perm (List.range (2 * n)) := by
  refine List.perm_of_nodup_nodup_toFinset_eq ?_ (List.nodup_range _) ?_
  · refine hnd.append (keyIndicesOf_nodup n S) ?_
    intro a ha hk
    exact ((mem_keyIndicesOf n S a).1 hk).2 ha
  · ext a
    simp only [List.mem_toFinset, List.mem_append, List.mem_range,
      mem_keyIndicesOf]
    constructor
    · rintro (h | ⟨h1, _⟩)
      · exact hsub a h
      · exact h1
    · intro h
      by_cases hc : a ∈ S.checkSample
      · exact Or.inl hc
      · exact Or.inr ⟨h, hc⟩

theorem map_getD_range (l : List ℕ) :
    (List.range l.length).map (fun i => l.getD i 0) = l := by
  refine List.ext_getElem (by simp) ?_
  intro i h1 h2
  simp only [List.getElem_map, List.getElem_range]
  rw [List.getD_eq_getElem?_getD, List.getElem?_eq_getElem h2]
  rfl

/-! ### Claim theorems -/

/-- Sources where Bob's basis draw always disagrees with Alice's, so no
position survives sifting. -/
def disagreeSources : Sources :=
  { zeroSources with bobSrc := fun _ => 1 }

theorem totalQubits_two_zero : totalQubits 2 0 = 8 := by
  norm_num [totalQubits]

/-- C2: the sifted set is exactly the positions where Alice's and Bob's
bases agree; the run returns the sifted-count abort exactly when fewer
than `2*n` positions survive sifting; that abort reports the observed
sifted count and is terminal (it carries no shared-key field, and no
check/key partition, QBER, or key is part of the result). -/
theorem sifting_abort_characterization (n : ℕ)
    (delta tolerance avgErrors : ℚ) (eve : Bool) (S : Sources) :
    (∀ i, i ∈ siftedOf n delta S ↔
        i < totalQubits n delta ∧ S.aliceSrc i = S.bobSrc i) ∧
    ((∃ r, run_bb84 n delta tolerance avgErrors eve S =
        RunResult.abortSifted r (siftedOf n delta S).length) ↔
      (siftedOf n delta S).length < 2 * n) ∧
    (∀ r l, run_bb84 n delta tolerance avgErrors eve S =
        RunResult.abortSifted r l → l = (siftedOf n delta S).length) ∧
    ((siftedOf n delta S).length < 2 * n →
      sharedKeyBitsOf (run_bb84 n delta tolerance avgErrors eve S) = none) := by
  refine ⟨mem_siftedOf n delta S, ⟨?_, ?_⟩, ?_, ?_⟩
  · rintro ⟨r, heq⟩
    by_cases h1 : (siftedOf n delta S).length < 2 * n
    · exact h1
    · by_cases h2 : qberOf n delta S > tolerance
      · rw [run_bb84_eq_abortQBER n delta tolerance avgErrors eve S h1 h2] at heq
        exact RunResult.noConfusion heq
      · rw [run_bb84_eq_success n delta tolerance avgErrors eve S h1 h2] at heq
        exact RunResult.noConfusion heq
  · intro h1
    exact ⟨_, run_bb84_eq_abortSifted n delta tolerance avgErrors eve S h1⟩
  · intro r l heq
    by_cases h1 : (siftedOf n delta S).length < 2 * n
    · rw [run_bb84_eq_abortSifted n delta tolerance avgErrors eve S h1] at heq
      injection heq with hr hl
      exact hl.symm
    · by_cases h2 : qberOf n delta S > tolerance
      · rw [run_bb84_eq_abortQBER n delta tolerance avgErrors eve S h1 h2] at heq
        exact RunResult.noConfusion heq
      · rw [run_bb84_eq_success n delta tolerance avgErrors eve S h1 h2] at heq
        exact RunResult.noConfusion heq
  · intro h1
    rw [run_bb84_eq_abortSifted n delta tolerance avgErrors eve S h1]
    rfl

/-- Witness for the sifting-abort theorem at a concrete run: with `n = 2`
and bases that never agree, the sifted set is empty and the run carries
no shared-key field. -/
theorem sifting_abort_characterization_witness :
    (siftedOf 2 0 disagreeSources).length < 2 * 2 ∧
    sharedKeyBitsOf (run_bb84 2 0 1 0 false disagreeSources) = none := by
  have h : (siftedOf 2 0 disagreeSources).length < 2 * 2 := by
    have hs : siftedOf 2 0 disagreeSources = [] := by
      simp only [siftedOf]
      rw [totalQubits_two_zero]
      decide
    rw [hs]
    decide
  exact ⟨h, (sifting_abort_characterization 2 0 1 0 false disagreeSources).2.2.2 h⟩

/-- C7: when at least `2*n` positions survive sifting, the retained set is
the deterministic truncation of the sifted list: a prefix of it, of length
exactly `2*n`, listed in strictly ascending index order. -/
theorem retained_first_two_n (n : ℕ) (delta : ℚ) (S : Sources)
    (hre : 2 * n ≤ (siftedOf n delta S).length) :
    keptOf n delta S = (siftedOf n delta S).take (2 * n) ∧
    (keptOf n delta S).length = 2 * n ∧
    keptOf n delta S ++ (siftedOf n delta S).drop (2 * n) = siftedOf n delta S ∧
    List.Sorted (· < ·) (siftedOf n delta S) ∧
    List.Sorted (· < ·) (keptOf n delta S) :=
  ⟨rfl, keptOf_length n delta S hre, List.take_append_drop _ _,
    siftedOf_sorted n delta S, keptOf_sorted n delta S⟩

/-- Witness for the truncation theorem at a concrete run with four sifted
positions and `n = 1`. -/
theorem retained_first_two_n_witness :
    2 * 1 ≤ (siftedOf 1 0 zeroSources).length ∧
    (keptOf 1 0 zeroSources).length = 2 * 1 := by
  have h : 2 * 1 ≤ (siftedOf 1 0 zeroSources).length := by
    rw [siftedOf_zeroSources]
    decide
  exact ⟨h, (retained_first_two_n 1 0 zeroSources h).2.1⟩

/-- C1: once at least `2*n` sifted positions exist, `qber` is the check
mismatch count `m` divided by `n`, `m` counts the check-partition
positions where Alice's data bit differs from Bob's measured bit, the run
returns the QBER abort (carrying `qber`, `m` and `n`) exactly when
`qber > tolerance`, and `qber = tolerance` still proceeds to key assembly. -/
theorem qber_threshold (n : ℕ) (delta tolerance avgErrors : ℚ) (eve : Bool)
    (S : Sources) (hre : 2 * n ≤ (siftedOf n delta S).length) :
    qberOf n delta S = (mismatchesOf n delta S : ℚ) / (n : ℚ) ∧
    mismatchesOf n delta S =
      (S.checkSample.filter (fun ci =>
        decide ((aliceKeptOf n delta S).getD ci 0 ≠
          (bobKeptOf n delta S).getD ci 0))).length ∧
    (∀ ci ∈ S.checkSample, ci < 2 * n →
      (aliceKeptOf n delta S).getD ci 0 =
          S.dataSrc ((keptOf n delta S).getD ci 0) ∧
        (bobKeptOf n delta S).getD ci 0 =
          S.measuredSrc ((keptOf n delta S).getD ci 0)) ∧
    ((∃ r, run_bb84 n delta tolerance avgErrors eve S =
        RunResult.abortQBER r (qberOf n delta S) (mismatchesOf n delta S) n) ↔
      qberOf n delta S > tolerance) ∧
    (qberOf n delta S ≤ tolerance →
      run_bb84 n delta tolerance avgErrors eve S =
        RunResult.success (qberOf n delta S) (siftedOf n delta S).length
          (totalQubits n delta) (rawKeyAliceOf n delta S)
          ((realErrorCountOf n delta S : ℚ) /
            ((rawKeyAliceOf n delta S).length : ℚ))) := by
  have h1 : ¬ (siftedOf n delta S).length < 2 * n := Nat.not_lt.2 hre
  refine ⟨rfl, rfl, ?_, ⟨?_, ?_⟩, ?_⟩
  · intro ci hci hlt
    exact ⟨aliceKeptOf_getD_eq n delta S ci hre hlt,
      bobKeptOf_getD_eq n delta S ci hre hlt⟩
  · rintro ⟨r, heq⟩
    by_cases h2 : qberOf n delta S > tolerance
    · exact h2
    · rw [run_bb84_eq_success n delta tolerance avgErrors eve S h1 h2] at heq
      exact RunResult.noConfusion heq
  · intro h2
    exact ⟨_, run_bb84_eq_abortQBER n delta tolerance avgErrors eve S h1 h2⟩
  · intro h2
    exact run_bb84_eq_success n delta tolerance avgErrors eve S h1 (not_lt.2 h2)

/-- Witness for the QBER-threshold theorem at a concrete run with four
sifted positions and `n = 1`. -/
theorem qber_threshold_witness :
    2 * 1 ≤ (siftedOf 1 0 zeroSources).length ∧
    qberOf 1 0 zeroSources = (mismatchesOf 1 0 zeroSources : ℚ) / ((1 : ℕ) : ℚ) := by
  have h : 2 * 1 ≤ (siftedOf 1 0 zeroSources).length := by
    rw [siftedOf_zeroSources]
    decide
  exact ⟨h, (qber_threshold 1 0 1 0 false zeroSources h).1⟩

theorem mismatchesOf_zeroSources : mismatchesOf 1 0 zeroSources = 0 := by
  simp only [mismatchesOf, aliceKeptOf, bobKeptOf, keptOf, siftedOf,
    totalQubits_one_zero]
  decide

theorem qberOf_zeroSources : qberOf 1 0 zeroSources = 0 := by
  rw [qberOf, mismatchesOf_zeroSources]
  norm_num

theorem rawKeyAliceOf_zeroSources : rawKeyAliceOf 1 0 zeroSources = [0] := by
  simp only [rawKeyAliceOf, keyIndicesOf, aliceKeptOf, keptOf, siftedOf,
    totalQubits_one_zero]
  decide

theorem realErrorCountOf_zeroSources : realErrorCountOf 1 0 zeroSources = 0 := by
  simp only [realErrorCountOf, rawKeyAliceOf, rawKeyBobOf, keyIndicesOf,
    aliceKeptOf, bobKeptOf, keptOf, siftedOf, totalQubits_one_zero]
  decide

/-- Fully evaluated clean run: `n = 1`, no noise, no Eve, matching bases,
matching bits, `tolerance = 1`.  The run accepts with QBER `0` and the
one-bit key `[0]`. -/
theorem run_zero_success :
    run_bb84 1 0 1 0 false zeroSources = RunResult.success 0 4 4 [0] 0 := by
  have h1 : ¬ (siftedOf 1 0 zeroSources).length < 2 * 1 := by
    rw [siftedOf_zeroSources]
    decide
  have h2 : ¬ qberOf 1 0 zeroSources > 1 := by
    rw [qberOf_zeroSources]
    norm_num
  rw [run_bb84_eq_success 1 0 1 0 false zeroSources h1 h2, qberOf_zeroSources,
    siftedOf_zeroSources, totalQubits_one_zero, rawKeyAliceOf_zeroSources,
    realErrorCountOf_zeroSources]
  simp

/-- C3: on a successful run the shared key is Alice's data bits at the
key-partition positions (Bob's measured bits play no role in it) and has
length exactly `n`; on either abort the result has no shared-key field. -/
theorem shared_key_assembly (n : ℕ) (delta tolerance avgErrors : ℚ)
    (eve : Bool) (S : Sources) (hnd : S.checkSample.Nodup)
    (hlen : S.checkSample.length = n)
    (hsub : ∀ i ∈ S.checkSample, i < 2 * n) :
    (∀ q sl tq k rer, run_bb84 n delta tolerance avgErrors eve S =
        RunResult.success q sl tq k rer →
      k = (keyIndicesOf n S).map (fun i => (aliceKeptOf n delta S).getD i 0) ∧
      k = (keyIndicesOf n S).map
          (fun i => S.dataSrc ((keptOf n delta S).getD i 0)) ∧
      k.length = n) ∧
    (∀ r l, run_bb84 n delta tolerance avgErrors eve S =
        RunResult.abortSifted r l →
      sharedKeyBitsOf (run_bb84 n delta tolerance avgErrors eve S) = none) ∧
    (∀ r q m n0, run_bb84 n delta tolerance avgErrors eve S =
        RunResult.abortQBER r q m n0 →
      sharedKeyBitsOf (run_bb84 n delta tolerance avgErrors eve S) = none) := by
  refine ⟨?_, ?_, ?_⟩
  · intro q sl tq k rer heq
    by_cases h1 : (siftedOf n delta S).length < 2 * n
    · rw [run_bb84_eq_abortSifted n delta tolerance avgErrors eve S h1] at heq
      exact RunResult.noConfusion heq
    · by_cases h2 : qberOf n delta S > tolerance
      · rw [run_bb84_eq_abortQBER n delta tolerance avgErrors eve S h1 h2] at heq
        exact RunResult.noConfusion heq
      · rw [run_bb84_eq_success n delta tolerance avgErrors eve S h1 h2] at heq
        injection heq with hq hsl htq hk hrer
        rw [← hk]
        refine ⟨rfl, ?_, ?_⟩
        · rw [rawKeyAliceOf]
          refine List.map_congr_left ?_
          intro i hi
          exact aliceKeptOf_getD_eq n delta S i (Nat.not_lt.1 h1)
            ((mem_keyIndicesOf n S i).1 hi).1
        · rw [rawKeyAliceOf, List.length_map,
            keyIndicesOf_length n S hnd hlen hsub]
  · intro r l heq
    rw [heq]
    rfl
  · intro r q m n0 heq
    rw [heq]
    rfl

/-- Witness for the key-assembly theorem: the sample `[0]` is a valid
without-replacement draw for `n = 1`, and on the evaluated clean run the
key is `[0]`, Alice's data bit at the single key position. -/
theorem shared_key_assembly_witness :
    (zeroSources.checkSample.Nodup ∧ zeroSources.checkSample.length = 1 ∧
      ∀ i ∈ zeroSources.checkSample, i < 2 * 1) ∧
    ([0] : List ℕ).length = 1 := by
  refine ⟨⟨by decide, by decide, by decide⟩, ?_⟩
  exact ((shared_key_assembly 1 0 1 0 false zeroSources (by decide) (by decide)
    (by decide)).1 0 4 4 [0] 0 run_zero_success).2.2

/-- C4: for a run that reaches partitioning, the check sample (any value
`random.sample` can return: distinct indices below `2*n`, `n` of them) and
its complement are disjoint, each of size `n`, together a permutation of
the `2*n` retained indices — equivalently, of the retained channel
positions once mapped through the retained list — and the partition is a
function of the sampled indices only, independent of every bit value. -/
theorem check_key_partition (n : ℕ) (delta : ℚ) (S : Sources)
    (hre : 2 * n ≤ (siftedOf n delta S).length)
    (hnd : S.checkSample.Nodup) (hlen : S.checkSample.length = n)
    (hsub : ∀ i ∈ S.checkSample, i < 2 * n) :
    S.checkSample.length = n ∧
    (keyIndicesOf n S).length = n ∧
    (∀ i, i ∈ keyIndicesOf n S ↔ i < 2 * n ∧ i ∉ S.checkSample) ∧
    (∀ i ∈ S.checkSample, i ∉ keyIndicesOf n S) ∧
    (S.checkSample ++ keyIndicesOf n S).Perm (List.range (2 * n)) ∧
    ((S.checkSample ++ keyIndicesOf n S).map
        (fun i => (keptOf n delta S).getD i 0)).Perm (keptOf n delta S) ∧
    (∀ T : Sources, T.checkSample = S.checkSample →
      keyIndicesOf n T = keyIndicesOf n S) := by
  refine ⟨hlen, keyIndicesOf_length n S hnd hlen hsub, mem_keyIndicesOf n S,
    ?_, checkSample_append_keyIndices_perm n S hnd hsub, ?_, ?_⟩
  · intro i hi hk
    exact ((mem_keyIndicesOf n S i).1 hk).2 hi
  · have hp :=
      (checkSample_append_keyIndices_perm n S hnd hsub).map
        (fun i => (keptOf n delta S).getD i 0)
    have hm := map_getD_range (keptOf n delta S)
    rw [keptOf_length n delta S hre] at hm
    have hid :
        ((List.range (2 * n)).map
          (fun i => (keptOf n delta S).getD i 0)).Perm (keptOf n delta S) := by
      rw [hm]
    exact hp.trans hid
  · intro T hT
    simp [keyIndicesOf, hT]

/-- Witness for the partition theorem at the concrete clean run with
`n = 1` and sample `[0]`: the key partition is `[1]`. -/
theorem check_key_partition_witness :
    2 * 1 ≤ (siftedOf 1 0 zeroSources).length ∧
    (keyIndicesOf 1 zeroSources).length = 1 := by
  have hre : 2 * 1 ≤ (siftedOf 1 0 zeroSources).length := by
    rw [siftedOf_zeroSources]
    decide
  exact ⟨hre, (check_key_partition 1 0 zeroSources hre (by decide) (by decide)
    (by decide)).2.1⟩

/-- C10: the key-partition indices are enumerated in strictly ascending
order, they are exactly the non-check indices below `2*n`, and on success
the `j`-th key bit is Alice's kept bit at the `j`-th smallest non-check
index. -/
theorem key_order_preserved (n : ℕ) (delta tolerance avgErrors : ℚ)
    (eve : Bool) (S : Sources) :
    List.Sorted (· < ·) (keyIndicesOf n S) ∧
    (∀ i, i ∈ keyIndicesOf n S ↔ i < 2 * n ∧ i ∉ S.checkSample) ∧
    (∀ q sl tq k rer, run_bb84 n delta tolerance avgErrors eve S =
        RunResult.success q sl tq k rer →
      k = (keyIndicesOf n S).map (fun i => (aliceKeptOf n delta S).getD i 0) ∧
      ∀ j, j < (keyIndicesOf n S).length →
        k.getD j 0 =
          (aliceKeptOf n delta S).getD ((keyIndicesOf n S).getD j 0) 0) := by
  refine ⟨keyIndicesOf_sorted n S, mem_keyIndicesOf n S, ?_⟩
  intro q sl tq k rer heq
  by_cases h1 : (siftedOf n delta S).length < 2 * n
  · rw [run_bb84_eq_abortSifted n delta tolerance avgErrors eve S h1] at heq
    exact RunResult.noConfusion heq
  · by_cases h2 : qberOf n delta S > tolerance
    · rw [run_bb84_eq_abortQBER n delta tolerance avgErrors eve S h1 h2] at heq
      exact RunResult.noConfusion heq
    · rw [run_bb84_eq_success n delta tolerance avgErrors eve S h1 h2] at heq
      injection heq with hq hsl htq hk hrer
      rw [← hk]
      refine ⟨rfl, ?_⟩
      intro j hj
      rw [rawKeyAliceOf, getD_map_of_lt _ _ _ hj 0 0]

/-- Witness for the key-order theorem on the evaluated clean run: the
single key bit equals Alice's kept bit at key index `1`. -/
theorem key_order_preserved_witness :
    run_bb84 1 0 1 0 false zeroSources = RunResult.success 0 4 4 [0] 0 ∧
    ([0] : List ℕ) =
      (keyIndicesOf 1 zeroSources).map
        (fun i => (aliceKeptOf 1 0 zeroSources).getD i 0) :=
  ⟨run_zero_success,
    ((key_order_preserved 1 0 1 0 false zeroSources).2.2 0 4 4 [0] 0
      run_zero_success).1⟩

theorem totalQubits_sixteen : totalQubits 16 (1 / 5) = 68 := by
  rw [totalQubits, show ((4 : ℚ) + 1 / 5) * ((16 : ℕ) : ℚ) = 336 / 5 by norm_num,
    Nat.ceil_eq_iff] <;> norm_num

/-- C8: the ensemble length is `total = ceil((4 + delta) * n)` — all four
drawn strings have that length — the success result reports exactly this
value in its `total_qubits` field, and `n = 16`, `delta = 0.2` gives
`total = 68`. -/
theorem ensemble_total (n : ℕ) (delta tolerance avgErrors : ℚ) (eve : Bool)
    (S : Sources) :
    totalQubits n delta = Nat.ceil ((4 + delta) * (n : ℚ)) ∧
    (drawBits S.dataSrc (totalQubits n delta)).length = totalQubits n delta ∧
    (drawBits S.aliceSrc (totalQubits n delta)).length = totalQubits n delta ∧
    (drawBits S.bobSrc (totalQubits n delta)).length = totalQubits n delta ∧
    (∀ q sl tq k rer, run_bb84 n delta tolerance avgErrors eve S =
        RunResult.success q sl tq k rer → tq = totalQubits n delta) ∧
    totalQubits 16 (1 / 5) = 68 := by
  refine ⟨rfl, by simp [drawBits], by simp [drawBits], by simp [drawBits],
    ?_, totalQubits_sixteen⟩
  intro q sl tq k rer heq
  by_cases h1 : (siftedOf n delta S).length < 2 * n
  · rw [run_bb84_eq_abortSifted n delta tolerance avgErrors eve S h1] at heq
    exact RunResult.noConfusion heq
  · by_cases h2 : qberOf n delta S > tolerance
    · rw [run_bb84_eq_abortQBER n delta tolerance avgErrors eve S h1 h2] at heq
      exact RunResult.noConfusion heq
    · rw [run_bb84_eq_success n delta tolerance avgErrors eve S h1 h2] at heq
      injection heq with hq hsl htq hk hrer
      exact htq.symm

/-- Witness for the ensemble-length theorem on the evaluated clean run:
the reported `total_qubits` is `totalQubits 1 0 = 4`. -/
theorem ensemble_total_witness :
    run_bb84 1 0 1 0 false zeroSources = RunResult.success 0 4 4 [0] 0 ∧
    (4 : ℕ) = totalQubits 1 0 :=
  ⟨run_zero_success,
    (ensemble_total 1 0 1 0 false zeroSources).2.2.2.2.1 0 4 4 [0] 0
      run_zero_success⟩

theorem siftedOf_mismatchSources :
    siftedOf 1 0 mismatchSources = [0, 1, 2, 3] := by
  simp only [siftedOf]
  rw [totalQubits_one_zero]
  decide

theorem mismatchesOf_mismatchSources : mismatchesOf 1 0 mismatchSources = 1 := by
  simp only [mismatchesOf, aliceKeptOf, bobKeptOf, keptOf, siftedOf,
    totalQubits_one_zero]
  decide

theorem qberOf_mismatchSources : qberOf 1 0 mismatchSources = 1 := by
  rw [qberOf, mismatchesOf_mismatchSources]
  norm_num

theorem rawKeyAliceOf_mismatchSources :
    rawKeyAliceOf 1 0 mismatchSources = [0] := by
  simp only [rawKeyAliceOf, keyIndicesOf, aliceKeptOf, keptOf, siftedOf,
    totalQubits_one_zero]
  decide

theorem realErrorCountOf_mismatchSources :
    realErrorCountOf 1 0 mismatchSources = 1 := by
  simp only [realErrorCountOf, rawKeyAliceOf, rawKeyBobOf, keyIndicesOf,
    aliceKeptOf, bobKeptOf, keptOf, siftedOf, totalQubits_one_zero]
  decide

/-- C9 (code bug): `run_bb84` performs no parameter validation at all.
Called with `tolerance = 2`, a value outside `[0, 1]`, and a channel where
every measured bit mismatches, the run consumes its full random draw,
proceeds through measurement, sifting and estimation, and returns success
with `qber = 1` instead of rejecting the parameters before drawing any
randomness or simulating. -/
theorem run_accepts_invalid_tolerance :
    run_bb84 1 0 2 0 false mismatchSources = RunResult.success 1 4 4 [0] 1 := by
  have h1 : ¬ (siftedOf 1 0 mismatchSources).length < 2 * 1 := by
    rw [siftedOf_mismatchSources]
    decide
  have h2 : ¬ qberOf 1 0 mismatchSources > 2 := by
    rw [qberOf_mismatchSources]
    norm_num
  rw [run_bb84_eq_success 1 0 2 0 false mismatchSources h1 h2,
    qberOf_mismatchSources, siftedOf_mismatchSources, totalQubits_one_zero,
    rawKeyAliceOf_mismatchSources, realErrorCountOf_mismatchSources]
  simp

theorem range_getD (total i : ℕ) (h : i < total) :
    (List.range total).getD i 0 = i := by
  rw [List.getD_eq_getElem?_getD, List.getElem?_range h]
  rfl

theorem random_err_mask_getD (total : ℕ) (p : ℚ) (us : ℕ → ℚ) (i : ℕ)
    (h : i < total) :
    (random_err_mask total p us).getD i 0 = if us i < p then 1 else 0 := by
  rw [random_err_mask, getD_map_of_lt _ _ _ (by simpa using h) 0 0,
    range_getD total i h]

theorem random_err_mask_eq_one_iff (total : ℕ) (p : ℚ) (us : ℕ → ℚ) (i : ℕ)
    (h : i < total) :
    (random_err_mask total p us).getD i 0 = 1 ↔ us i < p := by
  rw [random_err_mask_getD total p us i h]
  split_ifs with hc <;> simp [hc]

theorem mem_bitFlipSegment (L : ℕ) (p : ℚ) (us : ℕ → ℚ) (i : ℕ) :
    Gate.x i ∈ bitFlipSegment L p us ↔ i < L ∧ us i < p := by
  simp only [bitFlipSegment, List.mem_flatMap, List.mem_range]
  constructor
  · rintro ⟨j, hj, hg⟩
    by_cases hm : (random_err_mask L p us).getD j 0 = 1
    · rw [if_pos hm] at hg
      simp only [List.mem_singleton] at hg
      injection hg with hij
      subst hij
      exact ⟨hj, (random_err_mask_eq_one_iff L p us i hj).1 hm⟩
    · rw [if_neg hm] at hg
      simp at hg
  · rintro ⟨hi, hu⟩
    refine ⟨i, hi, ?_⟩
    rw [if_pos ((random_err_mask_eq_one_iff L p us i hi).2 hu)]
    simp

theorem mem_phaseFlipSegment (L : ℕ) (p : ℚ) (us : ℕ → ℚ) (i : ℕ) :
    Gate.z i ∈ phaseFlipSegment L p us ↔ i < L ∧ us i < p := by
  simp only [phaseFlipSegment, List.mem_flatMap, List.mem_range]
  constructor
  · rintro ⟨j, hj, hg⟩
    by_cases hm : (random_err_mask L p us).getD j 0 = 1
    · rw [if_pos hm] at hg
      simp only [List.mem_singleton] at hg
      injection hg with hij
      subst hij
      exact ⟨hj, (random_err_mask_eq_one_iff L p us i hj).1 hm⟩
    · rw [if_neg hm] at hg
      simp at hg
  · rintro ⟨hi, hu⟩
    refine ⟨i, hi, ?_⟩
    rw [if_pos ((random_err_mask_eq_one_iff L p us i hi).2 hu)]
    simp

theorem barrier_not_mem_prepare (s : String) (db ab : List ℕ) :
    Gate.barrier s ∉ prepare_alice_circuit db ab := by
  intro hmem
  simp only [prepare_alice_circuit, List.mem_flatMap, List.mem_range] at hmem
  obtain ⟨i, hi, hg⟩ := hmem
  split_ifs at hg <;> simp_all

theorem barrier_not_mem_bitFlipSegment (s : String) (L : ℕ) (p : ℚ)
    (us : ℕ → ℚ) : Gate.barrier s ∉ bitFlipSegment L p us := by
  intro hmem
  simp only [bitFlipSegment, List.mem_flatMap, List.mem_range] at hmem
  obtain ⟨i, hi, hg⟩ := hmem
  split_ifs at hg <;> simp_all

theorem barrier_not_mem_phaseFlipSegment (s : String) (L : ℕ) (p : ℚ)
    (us : ℕ → ℚ) : Gate.barrier s ∉ phaseFlipSegment L p us := by
  intro hmem
  simp only [phaseFlipSegment, List.mem_flatMap, List.mem_range] at hmem
  obtain ⟨i, hi, hg⟩ := hmem
  split_ifs at hg <;> simp_all

theorem barrier_not_mem_bobSegment (s : String) (bb : List ℕ) :
    Gate.barrier s ∉ bobSegment bb := by
  intro hmem
  simp only [bobSegment, List.mem_flatMap, List.mem_range, List.mem_append] at hmem
  obtain ⟨i, hi, hg⟩ := hmem
  rcases hg with hg | hg
  · split_ifs at hg <;> simp_all
  · simp_all

/-- C5: eavesdropper interference appends (after its barrier) exactly one
per-position gate block; a position where Eve's basis equals Alice's gets
no gates at all; a position where they differ gets the basis-switching `H`
followed, exactly when the drawn coin is set — one of the two equally many
outcomes of the fair coin — by an `X` when Eve's basis is `0` (Z) and a
`Z` when it is `1` (X); and with the eavesdropper disabled `run_bb84`
builds its circuit without any interference stage. -/
theorem eve_interference_model :
    (∀ qc a e coins, eve_interference qc a e coins =
      qc ++ Gate.barrier "Eve" :: eveSegment a e coins) ∧
    (∀ a e coins, eveSegment a e coins =
      (List.range (min e.length a.length)).flatMap (evePerPos a e coins)) ∧
    (∀ (a e : List ℕ) coins i, e.getD i 0 = a.getD i 0 →
      evePerPos a e coins i = []) ∧
    (∀ (a e : List ℕ) coins i, e.getD i 0 ≠ a.getD i 0 → coins i = false →
      evePerPos a e coins i = [Gate.h i]) ∧
    (∀ (a e : List ℕ) coins i, e.getD i 0 ≠ a.getD i 0 → coins i = true →
      evePerPos a e coins i =
        [Gate.h i, if e.getD i 0 = 0 then Gate.x i else Gate.z i]) ∧
    (∀ (a e : List ℕ) i, e.getD i 0 ≠ a.getD i 0 →
      (([false, true] : List Bool).filter (fun b =>
        decide (evePerPos a e (fun _ => b) i =
          [Gate.h i, if e.getD i 0 = 0 then Gate.x i else Gate.z i]))).length
        = 1) ∧
    (∀ (n : ℕ) (delta avgErrors : ℚ) (S : Sources),
      bb84_circuit n delta avgErrors false S =
        measure_bob_in_bases
          (add_random_errors
            (prepare_alice_circuit (drawBits S.dataSrc (totalQubits n delta))
              (drawBits S.aliceSrc (totalQubits n delta)))
            (totalQubits n delta) (avgErrors / (totalQubits n delta : ℚ))
            S.usBit S.usPhase)
          (drawBits S.bobSrc (totalQubits n delta))) ∧
    (∀ (n : ℕ) (delta avgErrors : ℚ) (S : Sources),
      Gate.barrier "Eve" ∉ bb84_circuit n delta avgErrors false S) := by
  refine ⟨fun qc a e coins => rfl, fun a e coins => rfl, ?_, ?_, ?_, ?_,
    fun n delta avgErrors S => rfl, ?_⟩
  · intro a e coins i hagree
    simp only [evePerPos]
    rw [if_neg (not_not_intro hagree)]
  · intro a e coins i hne hc
    simp only [evePerPos]
    rw [if_pos hne, hc]
    rfl
  · intro a e coins i hne hc
    simp only [evePerPos]
    rw [if_pos hne, hc]
    rfl
  · intro a e i hne
    have hf : evePerPos a e (fun _ => false) i = [Gate.h i] := by
      simp only [evePerPos]
      rw [if_pos hne]
      rfl
    have ht : evePerPos a e (fun _ => true) i =
        [Gate.h i, if e.getD i 0 = 0 then Gate.x i else Gate.z i] := by
      simp only [evePerPos]
      rw [if_pos hne]
      rfl
    simp only [List.filter, hf, ht]
    simp
  · intro n delta avgErrors S hmem
    rw [show bb84_circuit n delta avgErrors false S =
        measure_bob_in_bases
          (add_random_errors
            (prepare_alice_circuit (drawBits S.dataSrc (totalQubits n delta))
              (drawBits S.aliceSrc (totalQubits n delta)))
            (totalQubits n delta) (avgErrors / (totalQubits n delta : ℚ))
            S.usBit S.usPhase)
          (drawBits S.bobSrc (totalQubits n delta)) from rfl] at hmem
    simp only [measure_bob_in_bases, add_random_errors,
      add_random_phase_flip_errors, add_random_bit_flip_errors] at hmem
    rcases List.mem_append.1 hmem with h1 | h1
    · rcases List.mem_append.1 h1 with h2 | h2
      · rcases List.mem_append.1 h2 with h3 | h3
        · exact barrier_not_mem_prepare _ _ _ h3
        · rcases List.mem_cons.1 h3 with h4 | h4
          · exact absurd h4 (by decide)
          · exact barrier_not_mem_bitFlipSegment _ _ _ _ h4
      · rcases List.mem_cons.1 h2 with h4 | h4
        · exact absurd h4 (by decide)
        · exact barrier_not_mem_phaseFlipSegment _ _ _ _ h4
    · rcases List.mem_cons.1 h1 with h4 | h4
      · exact absurd h4 (by decide)
      · exact barrier_not_mem_bobSegment _ _ h4

/-- Witness for the interference theorem at position `0` with Alice's
basis `Z` and Eve's basis `X`: the agreeing position adds nothing, the
coin-unset case adds only the basis switch, the coin-set case adds the
phase flip. -/
theorem eve_interference_model_witness :
    (([1] : List ℕ).getD 0 0 ≠ ([0] : List ℕ).getD 0 0) ∧
    evePerPos [0] [1] (fun _ => false) 0 = [Gate.h 0] ∧
    evePerPos [0] [1] (fun _ => true) 0 = [Gate.h 0, Gate.z 0] ∧
    evePerPos [0] [0] (fun _ => true) 0 = [] := by
  refine ⟨by decide, ?_, ?_, ?_⟩
  · exact eve_interference_model.2.2.2.1 [0] [1] (fun _ => false) 0
      (by decide) rfl
  · have h := eve_interference_model.2.2.2.2.1 [0] [1] (fun _ => true) 0
      (by decide) rfl
    simpa using h
  · exact eve_interference_model.2.2.1 [0] [0] (fun _ => true) 0 (by decide)

/-- C6: the run's circuit is, in order, Alice's preparation, the optional
interference stage, the bit-flip stage, the phase-flip stage, and Bob's
measurement stage; the two noise stages mark position `i` exactly when its
own draw falls below `p/2` with `p = avgErrors/total` (the per-position
event on a uniform draw from `[0,1)` is the initial segment of length
`p/2`), each position depending only on its own draw, on two streams
independent of each other and of Eve's coins. -/
theorem noise_model (n : ℕ) (delta avgErrors : ℚ) (eve : Bool) (S : Sources) :
    (bb84_circuit n delta avgErrors eve S =
      prepare_alice_circuit (drawBits S.dataSrc (totalQubits n delta))
          (drawBits S.aliceSrc (totalQubits n delta)) ++
        (if eve then
          Gate.barrier "Eve" ::
            eveSegment (drawBits S.aliceSrc (totalQubits n delta))
              (drawBits S.eveSrc (totalQubits n delta)) S.eveCoins
         else []) ++
        Gate.barrier "BitFlips" ::
          bitFlipSegment (totalQubits n delta)
            (avgErrors / (totalQubits n delta : ℚ) / 2) S.usBit ++
        Gate.barrier "PhaseFlips" ::
          phaseFlipSegment (totalQubits n delta)
            (avgErrors / (totalQubits n delta : ℚ) / 2) S.usPhase ++
        Gate.barrier "Bob" ::
          bobSegment (drawBits S.bobSrc (totalQubits n delta))) ∧
    (∀ (total : ℕ) (p : ℚ) (us : ℕ → ℚ) (i : ℕ), i < total →
      ((random_err_mask total p us).getD i 0 = 1 ↔ us i < p)) ∧
    (∀ (L : ℕ) (p : ℚ) (us : ℕ → ℚ) (i : ℕ),
      Gate.x i ∈ bitFlipSegment L p us ↔ i < L ∧ us i < p) ∧
    (∀ (L : ℕ) (p : ℚ) (us : ℕ → ℚ) (i : ℕ),
      Gate.z i ∈ phaseFlipSegment L p us ↔ i < L ∧ us i < p) ∧
    (∀ (total : ℕ) (p : ℚ) (us us' : ℕ → ℚ) (i : ℕ), i < total →
      us i = us' i →
      (random_err_mask total p us).getD i 0 =
        (random_err_mask total p us').getD i 0) ∧
    (∀ p : ℚ, 0 ≤ p → p ≤ 1 →
      {u : ℚ | u ∈ Set.Ico (0 : ℚ) 1 ∧ u < p} = Set.Ico 0 p) := by
  refine ⟨?_, random_err_mask_eq_one_iff, mem_bitFlipSegment,
    mem_phaseFlipSegment, ?_, ?_⟩
  · cases eve <;>
      simp [bb84_circuit, eve_interference, measure_bob_in_bases,
        add_random_errors, add_random_bit_flip_errors,
        add_random_phase_flip_errors, List.append_assoc]
  · intro total p us us' i hi he
    rw [random_err_mask_getD total p us i hi,
      random_err_mask_getD total p us' i hi, he]
  · intro p h0 h1
    ext u
    simp only [Set.mem_setOf_eq, Set.mem_Ico]
    constructor
    · rintro ⟨⟨hu0, _⟩, hup⟩
      exact ⟨hu0, hup⟩
    · rintro ⟨hu0, hup⟩
      exact ⟨⟨hu0, lt_of_lt_of_le hup h1⟩, hup⟩

/-- Witness for the noise theorem: with a draw of `0` against threshold
`1`, the mask marks position `0` of a one-qubit register. -/
theorem noise_model_witness :
    (0 : ℚ) < 1 ∧ (random_err_mask 1 1 (fun _ => 0)).getD 0 0 = 1 :=
  ⟨zero_lt_one,
    ((noise_model 0 0 0 false zeroSources).2.1 1 1 (fun _ => 0) 0
      (by decide)).2 zero_lt_one⟩
